import Mathlib

/-!
Verification of the GitHub issue summarizer core: a shallow embedding of
`src/services/ai_service.py` (rule-based extractive summarization) and
`src/services/cache_service.py` (cache key derivation and memoizing
get-or-set), with theorems settling the specification claims.

Python strings are modelled as `List Char` (code points); Python integers as
`Int` / `Nat`; Python floats appearing in sentence scores as `ℚ` (every score
is a finite sum E + d with E a nonnegative multiple of 1/2 and
d ∈ {0, 3/10, 2/5, 7/10}, a grid on which binary64 evaluation of the
source's fixed accumulation order agrees with exact rational arithmetic for
both equality and order, so sorting behaviour is preserved); `None`-able
values as `Option`; exceptions as `Except`.  Character-class predicates
(whitespace, upper/lower case) are modelled on the ASCII range, where the
string primitives used by the source agree with them.
-/

set_option maxRecDepth 100000
set_option maxHeartbeats 1000000

namespace IssueSum

/-- ASCII model of Python `str.isspace` as used by `str.split()` /
`str.strip()`: space, tab, newline, carriage return, vertical tab, form
feed. -/
def isPySpace (c : Char) : Bool :=
  c.toNat = 32 || c.toNat = 9 || c.toNat = 10 || c.toNat = 13 ||
  c.toNat = 11 || c.toNat = 12

/-- Helper for `pyWords`: accumulates the current word (reversed) while
splitting on whitespace runs; empty fragments are never produced. -/
def splitWsAux : List Char → List Char → List (List Char)
  | [], acc => if acc.isEmpty then [] else [acc.reverse]
  | c :: rest, acc =>
    if isPySpace c then
      if acc.isEmpty then splitWsAux rest [] else acc.reverse :: splitWsAux rest []
    else splitWsAux rest (c :: acc)

/-- Model of Python `text.split()` (no argument): split on whitespace runs,
dropping empty fragments. -/
def pyWords (l : List Char) : List (List Char) :=
  splitWsAux l []

/-- Model of Python `" ".join(ws)`. -/
def joinSp : List (List Char) → List Char
  | [] => []
  | [w] => w
  | w :: ws => w ++ ' ' :: joinSp ws

/-- `" ".join(text.split())` — collapse every whitespace run to a single
space and trim the ends. -/
def collapseWs (l : List Char) : List Char :=
  joinSp (pyWords l)

/-- Model of Python `s.strip()`: drop whitespace from both ends. -/
def pyStrip (l : List Char) : List Char :=
  ((l.dropWhile isPySpace).reverse.dropWhile isPySpace).reverse

/-- Model of the Python slice `s[:n]` for an `int` bound `n`: a negative
bound counts back from the end of the string. -/
def pyTake (l : List Char) (n : Int) : List Char :=
  if 0 ≤ n then l.take n.toNat else l.take (l.length - n.natAbs)

/-! ### The regex rewrites of `AIService._preprocess_text`

Each `re.sub` call of the source scans left to right, replacing
non-overlapping matches and never rescanning replacement text.  `scanRw`
is that driver; the per-pattern matchers below return the number of
characters consumed (always ≥ 1) and the replacement text.  The fuel
argument (instantiated with the input length by every caller) only serves
to make the recursion structural. -/

/-- Left-to-right `re.sub` driver: at each position, if matcher `m` fires,
emit its replacement and skip the matched characters, otherwise copy one
character and move on. -/
def scanRw (m : List Char → Option (Nat × List Char)) : Nat → List Char → List Char
  | _, [] => []
  | 0, l => l
  | fuel + 1, c :: rest =>
    match m (c :: rest) with
    | some (n, repl) => repl ++ scanRw m fuel (rest.drop (n - 1))
    | none => c :: scanRw m fuel rest

/-- The backtick character (written numerically because of its syntactic
role in Lean). -/
def btick : Char := Char.ofNat 96

/-- Matcher for `` ```[^`]*``` `` → `" [code block] "`: a fenced code block
is three backticks, a maximal run of non-backticks, three backticks. -/
def matchCodeBlock (l : List Char) : Option (Nat × List Char) :=
  match l with
  | c1 :: c2 :: c3 :: rest =>
    if c1 = btick ∧ c2 = btick ∧ c3 = btick then
      let run := rest.takeWhile (fun c => !(c = btick : Bool))
      match rest.drop run.length with
      | d1 :: d2 :: d3 :: _ =>
        if d1 = btick ∧ d2 = btick ∧ d3 = btick then
          some (6 + run.length, (" [code block] ").data)
        else none
      | _ => none
    else none
  | _ => none

/-- Matcher for `` `[^`]*` `` → `" [code] "`. -/
def matchInlineCode (l : List Char) : Option (Nat × List Char) :=
  match l with
  | c :: rest =>
    if c = btick then
      let run := rest.takeWhile (fun c => !(c = btick : Bool))
      match rest.drop run.length with
      | d :: _ => if d = btick then some (2 + run.length, (" [code] ").data) else none
      | [] => none
    else none
  | [] => none

/-- Matcher for `#{1,6}\s*` → `""`: one to six hash marks followed by a
maximal whitespace run. -/
def matchHeader (l : List Char) : Option (Nat × List Char) :=
  match l with
  | c :: _ =>
    if c = '#' then
      let hs := min (l.takeWhile (fun c => (c = '#' : Bool))).length 6
      let ws := (l.drop hs).takeWhile isPySpace
      some (hs + ws.length, [])
    else none
  | [] => none

/-- Matcher for `\[([^\]]+)\]\([^\)]+\)` → the captured label. -/
def matchLink (l : List Char) : Option (Nat × List Char) :=
  match l with
  | c :: rest =>
    if c = '[' then
      let lbl := rest.takeWhile (fun c => !(c = ']' : Bool))
      if lbl.isEmpty then none
      else
        match rest.drop lbl.length with
        | d1 :: d2 :: rest2 =>
          if d1 = ']' ∧ d2 = '(' then
            let tgt := rest2.takeWhile (fun c => !(c = ')' : Bool))
            if tgt.isEmpty then none
            else
              match rest2.drop tgt.length with
              | e1 :: _ =>
                if e1 = ')' then some (4 + lbl.length + tgt.length, lbl) else none
              | [] => none
          else none
        | _ => none
    else none
  | [] => none

/-- The character class of the source's URL regex body:
`[a-zA-Z]`, `[0-9]`, the range `[$-_]` (with the redundant `@.&+`), and
`!*\(),` (the `%hh` alternative is subsumed, `%` lying in `$-_`). -/
def urlChar (c : Char) : Bool :=
  (97 ≤ c.toNat && c.toNat ≤ 122) || (36 ≤ c.toNat && c.toNat ≤ 95) ||
  c = '!' || c = '*' || c = '\\' || c = '(' || c = ')' || c = ','

/-- Matcher for the URL regex → `" [URL] "`: `http://` or `https://`
followed by a nonempty maximal run of `urlChar`s. -/
def matchURL (l : List Char) : Option (Nat × List Char) :=
  let base : Nat :=
    if l.take 8 = ("https://").data then 8
    else if l.take 7 = ("http://").data then 7
    else 0
  if base = 0 then none
  else
    let run := (l.drop base).takeWhile urlChar
    if run.isEmpty then none else some (base + run.length, (" [URL] ").data)

/-- `AIService._preprocess_text` up to (and including) the second whitespace
collapse — everything before the final 2000-character truncation. -/
def cleanedText (text : List Char) : List Char :=
  let t1 := collapseWs text
  let t2 := scanRw matchCodeBlock t1.length t1
  let t3 := scanRw matchInlineCode t2.length t2
  let t4 := scanRw matchHeader t3.length t3
  let t5 := scanRw matchLink t4.length t4
  let t6 := scanRw matchURL t5.length t5
  collapseWs t6

/-- `AIService._preprocess_text`: clean the raw text, then truncate to 2000
characters appending `"..."` when over the limit. -/
def preprocessText (text : List Char) : List Char :=
  let t := cleanedText text
  if 2000 < t.length then t.take 2000 ++ ("...").data else t

/-! ### Sentence splitting and scoring -/

/-- The terminal punctuation class `[.!?]` of the splitting regex. -/
def isTermCh (c : Char) : Bool :=
  c = '.' || c = '!' || c = '?'

/-- One step (from the right) of `re.split(r'[.!?]+', text)`: the flag
records whether the character just to the right was terminal punctuation,
so that a run of terminators opens only one new fragment. -/
def splitPunctStep (c : Char) (st : List (List Char) × Bool) : List (List Char) × Bool :=
  if isTermCh c then
    if st.2 then st else ([] :: st.1, true)
  else ((c :: st.1.headD []) :: st.1.tail, false)

/-- Model of `re.split(r'[.!?]+', text)`: fragments between maximal runs of
terminal punctuation (empty fragments included at the boundaries). -/
def splitPunct (l : List Char) : List (List Char) :=
  (l.foldr splitPunctStep ([[]], false)).1

/-- `AIService._split_into_sentences`: split on terminator runs, strip each
fragment, keep those that are nonempty and longer than 10 characters. -/
def splitIntoSentences (text : List Char) : List (List Char) :=
  ((splitPunct text).map pyStrip).filter
    (fun s => !s.isEmpty && decide (10 < s.length))

/-- `AIService.tech_keywords` (the fixed technical vocabulary).  The source
stores it as a Python `set`; only `_expand_summary` observes an iteration
order, and the theorems below do not depend on which order that is, so the
literal order of the source is used. -/
def techKeywords : List (List Char) :=
  [("bug").data, ("error").data, ("fix").data, ("issue").data, ("problem").data,
   ("feature").data, ("enhancement").data, ("request").data, ("implement").data,
   ("add").data, ("remove").data, ("update").data, ("upgrade").data,
   ("improve").data, ("performance").data, ("security").data,
   ("documentation").data, ("test").data, ("testing").data, ("refactor").data,
   ("api").data, ("ui").data, ("ux").data, ("database").data, ("server").data,
   ("client").data, ("frontend").data, ("backend").data, ("mobile").data,
   ("web").data, ("desktop").data, ("crash").data, ("freeze").data,
   ("slow").data, ("fast").data, ("optimize").data]

/-- The query/action trigger words of `_score_sentence`. -/
def questionWords : List (List Char) :=
  [("how").data, ("what").data, ("why").data, ("when").data, ("where").data,
   ("should").data, ("need").data, ("want").data]

/-- The defect trigger words of `_score_sentence`. -/
def errorWords : List (List Char) :=
  [("error").data, ("bug").data, ("fail").data, ("issue").data,
   ("problem").data, ("broken").data]

/-- `pat` is a prefix of `s` (character-by-character test). -/
def strPref : List Char → List Char → Bool
  | [], _ => true
  | _ :: _, [] => false
  | a :: as1, b :: bs => a = b && strPref as1 bs

/-- Python's substring test `pat in s` (contiguous occurrence; the empty
pattern matches everywhere). -/
def strIn (pat : List Char) : List Char → Bool
  | [] => pat.isEmpty
  | c :: rest => strPref pat (c :: rest) || strIn pat rest

/-- Python `s.lower()` (ASCII model, matching `Char.toLower`). -/
def pyLower (l : List Char) : List Char :=
  l.map Char.toLower

/-- `AIService._score_sentence`, with the source's accumulation order. -/
def scoreSentence (sentence fullText : List Char) : ℚ :=
  let sl := pyLower sentence
  let len := (pyWords sentence).length
  let s1 : ℚ := if 5 ≤ len ∧ len ≤ 20 then 1 else if 20 < len then 1/2 else 0
  let tech := (techKeywords.filter (fun w => strIn w sl)).length
  let s2 := s1 + (tech : ℚ) * (1/2)
  let s3 := if strIn sentence (fullText.take 200) then s2 + 1/2 else s2
  let s4 := if questionWords.any (fun w => strIn w sl) then s3 + 3/10 else s3
  let s5 := if errorWords.any (fun w => strIn w sl) then s4 + 2/5 else s4
  s5

/-! ### Summary composition -/

/-- Stable insertion: place `x` before the first element `y` with `r x y`. -/
def insertBy (r : α → α → Bool) (x : α) : List α → List α
  | [] => [x]
  | y :: ys => if r x y then x :: y :: ys else y :: insertBy r x ys

/-- Stable insertion sort; with `r x y = (key y ≤ key x)` this reproduces
Python's stable `sorted(..., reverse=True)` on a descending key, and with
`r x y = (key x ≤ key y)` plain ascending `sorted`. -/
def sortBy (r : α → α → Bool) : List α → List α
  | [] => []
  | x :: xs => insertBy r x (sortBy r xs)

/-- Insertion order for `sorted(items, key=score, reverse=True)`:
`x` goes before `y` iff `y`'s score is at most `x`'s (stability: an
original-earlier element precedes equal scores). -/
def descScore (x y : Nat × ℚ) : Bool :=
  decide (y.2 ≤ x.2)

/-- Index/value pairs `(i, a)` starting at `i`, modelling
`sentence_scores.items()` for the dict keyed `0..n-1` in order. -/
def enumFrom (i : Nat) : List α → List (Nat × α)
  | [] => []
  | a :: as1 => (i, a) :: enumFrom (i + 1) as1

/-- `AIService._generate_rule_based_summary`. -/
def generateRuleBasedSummary (text : List Char) (maxLength : Int) : List Char :=
  let sentences := splitIntoSentences text
  if sentences.isEmpty then ("Unable to analyze the content structure.").data
  else
    let scored := enumFrom 0 (sentences.map (fun s => scoreSentence s text))
    let num := min 3 (max 1 (sentences.length / 3))
    let top := (sortBy descScore scored).take num
    let selected := sortBy (fun a b => decide (a ≤ b)) (top.map Prod.fst)
    let summarySents := selected.map (fun i => sentences.getD i [])
    let summary := joinSp summarySents
    if maxLength < (summary.length : Int) then
      pyTake summary (maxLength - 3) ++ ("...").data
    else summary

/-- `c.isupper()` for ASCII. -/
def isUpperAscii (c : Char) : Bool :=
  65 ≤ c.toNat && c.toNat ≤ 90

/-- `c.islower()` for ASCII. -/
def isLowerAscii (c : Char) : Bool :=
  97 ≤ c.toNat && c.toNat ≤ 122

/-- `c.isalpha()` for ASCII. -/
def isAlphaAscii (c : Char) : Bool :=
  isUpperAscii c || isLowerAscii c

/-- `summary[0].upper() + summary[1:]` applied when the first character is
not uppercase (`Char.toUpper` is exactly the ASCII uppercase map). -/
def capitalizeFirst : List Char → List Char
  | [] => []
  | c :: rest => if !isUpperAscii c then Char.toUpper c :: rest else c :: rest

/-- `AIService._postprocess_summary`. -/
def postprocessSummary (summary : List Char) : List Char :=
  if summary.isEmpty then ("No summary could be generated.").data
  else
    let s1 := collapseWs summary
    let s2 := capitalizeFirst s1
    if !s2.isEmpty && !isTermCh (s2.getLastD ' ') then s2 ++ ['.'] else s2

/-- The keyword-collection loop of `_expand_summary`: up to three
vocabulary entries that occur as whole words of the lowered text but not as
substrings of the lowered summary. -/
def pickCtx (words : List (List Char)) (sumLower : List Char) :
    List (List Char) → List (List Char) → List (List Char)
  | [], acc => acc.reverse
  | k :: ks, acc =>
    if words.contains k && !(strIn k sumLower) then
      let acc2 := k :: acc
      if 3 ≤ acc2.length then acc2.reverse else pickCtx words sumLower ks acc2
    else pickCtx words sumLower ks acc

/-- Python `", ".join(ws)`. -/
def joinCommaSp : List (List Char) → List Char
  | [] => []
  | [w] => w
  | w :: ws => w ++ (", ").data ++ joinCommaSp ws

/-- `AIService._expand_summary`. -/
def expandSummary (text summary : List Char) (minLength : Int) : List Char :=
  if minLength ≤ (summary.length : Int) then summary
  else
    let words := pyWords (pyLower text)
    let ctx := pickCtx words (pyLower summary) techKeywords []
    if ctx.isEmpty then summary
    else
      let addition := (" Related to: ").data ++ joinCommaSp ctx ++ [('.' : Char)]
      if ((summary ++ addition).length : Int) ≤ minLength + 20 then summary ++ addition
      else summary

/-- Python `x or default` on an optional int argument: `None` and `0` both
fall back to the default. -/
def pyOrInt (v : Option Int) (d : Int) : Int :=
  match v with
  | Option.none => d
  | Option.some x => if x = 0 then d else x

/-- `AIService.summarize_text`.  The configuration collaborator's reference
defaults are `max_length = 150`, `min_length = 30`.  The `try/except` of the
source encloses only total operations, so the fallback branch is
unreachable and the embedding is the `try` body. -/
def summarize_text (text : List Char) (maxLength minLength : Option Int) : List Char :=
  if text.isEmpty || (pyStrip text).isEmpty then
    ("No content available to summarize.").data
  else
    let t := preprocessText text
    if (pyWords t).length < 10 then t
    else
      let maxLen := pyOrInt maxLength 150
      let minLen := pyOrInt minLength 30
      let s1 := generateRuleBasedSummary t maxLen
      let s2 := postprocessSummary s1
      if (s2.length : Int) < minLen ∧ 20 < (pyWords t).length then
        expandSummary t s2 minLen
      else s2

/-! ### Cache key generation (`CacheService.generate_cache_key`)

Keyword-argument values are modelled by `PyVal` (the JSON-serializable
scalars the callers pass: strings, ints, bools, `None`).  A `**kwargs`
mapping is a list of (name, value) pairs with pairwise-distinct names;
`sorted(kwargs.items())` sorts it by name (names being distinct, the value
components are never compared). -/

/-- JSON-serializable parameter values. -/
inductive PyVal where
  | str (s : List Char)
  | int (n : Int)
  | bool (b : Bool)
  | none
deriving DecidableEq

/-- Lowercase hex digit for `n < 16`. -/
def hexDigitCh (n : Nat) : Char :=
  if n < 10 then Char.ofNat (48 + n) else Char.ofNat (87 + n)

/-- `json.dumps` escaping of one character (`ensure_ascii` default: control
characters and non-ASCII become `\uXXXX`; code points above `0xFFFF`, which
no caller produces, are modelled by a single escape rather than a surrogate
pair). -/
def jsonEscapeChar (c : Char) : List Char :=
  if c = '"' then ['\\', '"']
  else if c = '\\' then ['\\', '\\']
  else if c = '\n' then ['\\', 'n']
  else if c = '\t' then ['\\', 't']
  else if c = '\r' then ['\\', 'r']
  else if c.toNat = 8 then ['\\', 'b']
  else if c.toNat = 12 then ['\\', 'f']
  else if c.toNat < 32 || 127 ≤ c.toNat then
    ['\\', 'u', hexDigitCh (c.toNat / 4096 % 16), hexDigitCh (c.toNat / 256 % 16),
     hexDigitCh (c.toNat / 16 % 16), hexDigitCh (c.toNat % 16)]
  else [c]

/-- `json.dumps` of a string. -/
def jsonStr (s : List Char) : List Char :=
  '"' :: (s.map jsonEscapeChar).flatten ++ ['"']

/-- `json.dumps` of a scalar value. -/
def dumpVal : PyVal → List Char
  | .str s => jsonStr s
  | .int n => if n < 0 then '-' :: Nat.toDigits 10 n.natAbs else Nat.toDigits 10 n.toNat
  | .bool b => if b then ("true").data else ("false").data
  | .none => ("null").data

/-- `json.dumps(sorted_items, sort_keys=True)` for a list of (name, value)
tuples: a JSON array of two-element arrays with the default `", "` / `", "`
separators (`sort_keys` only affects dicts, of which there are none). -/
def dumpPairs (ps : List (List Char × PyVal)) : List Char :=
  '[' :: joinCommaSp (ps.map (fun p => '[' :: (jsonStr p.1 ++ (", ").data ++ dumpVal p.2) ++ [']'])) ++ [']']

/-- Comparison used by `sorted(kwargs.items())`: Python compares the tuples
lexicographically, which for pairwise-distinct names is the code-point
lexicographic order of the names (Mathlib's `≤` on `List Char` is that
order). -/
def pairLe (p q : List Char × PyVal) : Bool :=
  decide (p.1 ≤ q.1)

/-- Model of the external `hashlib.md5(...).hexdigest()`: a deterministic
128-bit digest rendered as 32 lowercase hex characters.  The claims depend
only on determinism and the fixed output width, so the compression function
is modelled by a 128-bit polynomial hash. -/
def md5Hex (l : List Char) : List Char :=
  natToHexPad 32 (l.foldl (fun h c => (h * 1099511628211 + c.toNat) % (2 ^ 128)) 1469598103934665603)
where
  natToHexPad : Nat → Nat → List Char
    | 0, _ => []
    | k + 1, n => natToHexPad k (n / 16) ++ [hexDigitCh (n % 16)]

/-- The pre-hash key string `f"{pfx}:{json.dumps(sorted_items, sort_keys=True)}"`. -/
def keyString (pfx : List Char) (kwargs : List (List Char × PyVal)) : List Char :=
  pfx ++ ':' :: dumpPairs (sortBy pairLe kwargs)

/-- `CacheService.generate_cache_key`. -/
def generate_cache_key (pfx : List Char) (kwargs : List (List Char × PyVal)) : List Char :=
  let ks := keyString pfx kwargs
  if 250 < ks.length then pfx ++ ':' :: md5Hex ks else ks

/-! ### The memoizing cache layer

The backing store collaborator (`flask_caching.Cache`) is modelled by a
state type `σ` with primitive operations `bget`/`bset` that may fail
(`Except ε`); a stored value is `Option V`, `Option.none` standing for
Python `None`.  The producer (`callable_func`) is modelled by the sequence
of its invocation results, `Nat → Except ε (Option V)`, and `get_or_set`
additionally returns the final store state and the number of producer
invocations. -/

section Cache

variable {V ε σ : Type}

/-- `CacheService.get`: backend failures are swallowed and reported as a
miss (`None`), which also conflates a stored `None` with absence. -/
def cacheGet (bget : σ → List Char → Except ε (Option V)) (s : σ) (key : List Char) :
    Option V :=
  match bget s key with
  | .ok r => r
  | .error _ => Option.none

/-- `CacheService.set`: `timeout or self.default_timeout` (so `None` and
`0` become 1800); backend failures are swallowed, returning `false` and
leaving the state unchanged. -/
def cacheSet (bset : σ → List Char → Option V → Nat → Except ε σ) (s : σ)
    (key : List Char) (value : Option V) (timeout : Option Nat) : Bool × σ :=
  let t := match timeout with
    | Option.none => 1800
    | Option.some tv => if tv = 0 then 1800 else tv
  match bset s key value t with
  | .ok s2 => (true, s2)
  | .error _ => (false, s)

/-- `CacheService.get_or_set`.  The `try` body can only raise from
`callable_func()` (`self.get` and `self.set` swallow backend errors), in
which case the `except` block invokes the producer a second time, returning
its value or re-raising its failure.  Result: (value-or-error, final store
state, number of producer invocations). -/
def get_or_set (bget : σ → List Char → Except ε (Option V))
    (bset : σ → List Char → Option V → Nat → Except ε σ) (s : σ)
    (key : List Char) (producer : Nat → Except ε (Option V)) (timeout : Option Nat) :
    Except ε (Option V) × σ × Nat :=
  match cacheGet bget s key with
  | Option.some v => (Except.ok (Option.some v), s, 0)
  | Option.none =>
    match producer 0 with
    | .ok computed =>
      let r := cacheSet bset s key computed timeout
      (Except.ok computed, r.2, 1)
    | .error _ =>
      match producer 1 with
      | .ok v2 => (Except.ok v2, s, 2)
      | .error e2 => (Except.error e2, s, 2)

end Cache

/-- In-memory model of the backing store collaborator: an association list
from keys to stored values; `get` of an absent key yields `None`, exactly
like a stored `None`. -/
def memGet {V : Type} (s : List (List Char × Option V)) (key : List Char) :
    Except Unit (Option V) :=
  Except.ok ((List.lookup key s).getD Option.none)

/-- In-memory model of the backing store's `set` (TTL is retained by the
store but plays no role in the claims). -/
def memSet {V : Type} (s : List (List Char × Option V)) (key : List Char)
    (value : Option V) (_ : Nat) : Except Unit (List (List Char × Option V)) :=
  Except.ok ((key, value) :: s)

/-! ## Lemmas: stable insertion sort -/

theorem insertBy_perm (r : α → α → Bool) (x : α) (l : List α) :
    List.Perm (insertBy r x l) (x :: l) := by
  induction l with
  | nil => rfl
  | cons y ys ih =>
    unfold insertBy
    cases hr : r x y
    · simp only [hr, Bool.false_eq_true, if_false]
      exact (ih.cons y).trans (List.Perm.swap x y ys)
    · simp [hr]

theorem sortBy_perm (r : α → α → Bool) (l : List α) : List.Perm (sortBy r l) l := by
  induction l with
  | nil => rfl
  | cons x xs ih => exact (insertBy_perm r x (sortBy r xs)).trans (ih.cons x)

theorem mem_insertBy {r : α → α → Bool} {x a : α} {l : List α} :
    a ∈ insertBy r x l ↔ a = x ∨ a ∈ l := by
  rw [(insertBy_perm r x l).mem_iff, List.mem_cons]

/-- The name-only comparison on parameter pairs, as a strict order. -/
def pairKeyLt (p q : List Char × PyVal) : Prop :=
  p.1 < q.1

instance : IsAntisymm (List Char × PyVal) pairKeyLt :=
  ⟨fun _ _ h1 h2 => absurd h1 (lt_asymm h2)⟩

theorem insertBy_pairwise_le {x : List Char × PyVal} {l : List (List Char × PyVal)}
    (h : l.Pairwise (fun a b => a.1 ≤ b.1)) :
    (insertBy pairLe x l).Pairwise (fun a b => a.1 ≤ b.1) := by
  induction l with
  | nil => simp [insertBy]
  | cons y ys ih =>
    rcases List.pairwise_cons.mp h with ⟨hy, hys⟩
    unfold insertBy
    cases hxy : pairLe x y
    · have hle : y.1 ≤ x.1 :=
        le_of_not_le (fun hc => by simp [pairLe, hc] at hxy)
      simp only [hxy, Bool.false_eq_true, if_false]
      refine List.pairwise_cons.mpr ⟨?_, ih hys⟩
      intro b hb
      rcases mem_insertBy.mp hb with rfl | hb
      · exact hle
      · exact hy b hb
    · have hle : x.1 ≤ y.1 := of_decide_eq_true hxy
      simp only [hxy, if_true]
      refine List.pairwise_cons.mpr ⟨?_, h⟩
      intro b hb
      rcases List.mem_cons.mp hb with rfl | hb
      · exact hle
      · exact hle.trans (hy b hb)

theorem sortBy_pairwise_le (l : List (List Char × PyVal)) :
    (sortBy pairLe l).Pairwise (fun a b => a.1 ≤ b.1) := by
  induction l with
  | nil => simp [sortBy]
  | cons x xs ih => exact insertBy_pairwise_le ih

theorem sortBy_sorted_of_nodup {l : List (List Char × PyVal)}
    (hnd : (l.map Prod.fst).Nodup) : (sortBy pairLe l).Sorted pairKeyLt := by
  have hperm : List.Perm ((sortBy pairLe l).map Prod.fst) (l.map Prod.fst) :=
    (sortBy_perm pairLe l).map Prod.fst
  have hnd2 : ((sortBy pairLe l).map Prod.fst).Nodup := hperm.nodup_iff.mpr hnd
  have hne : (sortBy pairLe l).Pairwise (fun a b => a.1 ≠ b.1) :=
    (List.pairwise_map).mp hnd2
  exact ((sortBy_pairwise_le l).and hne).imp
    (fun hab => lt_of_le_of_ne hab.1 hab.2)

/-- Sorting by name maps permuted parameter lists with distinct names to the
same sorted list. -/
theorem sortBy_eq_of_perm {p q : List (List Char × PyVal)} (hperm : List.Perm p q)
    (hnd : (p.map Prod.fst).Nodup) : sortBy pairLe p = sortBy pairLe q := by
  have hndq : (q.map Prod.fst).Nodup := ((hperm.map Prod.fst).nodup_iff).mp hnd
  exact List.eq_of_perm_of_sorted
    ((sortBy_perm pairLe p).trans (hperm.trans (sortBy_perm pairLe q).symm))
    (sortBy_sorted_of_nodup hnd) (sortBy_sorted_of_nodup hndq)

/-- Shared helper: `generate_cache_key` is insensitive to the supply order
of parameters with distinct names. -/
theorem gck_perm (pfx : List Char) {p q : List (List Char × PyVal)}
    (hperm : List.Perm p q) (hnd : (p.map Prod.fst).Nodup) :
    generate_cache_key pfx p = generate_cache_key pfx q := by
  unfold generate_cache_key keyString
  rw [sortBy_eq_of_perm hperm hnd]

theorem md5Hex_aux_length (k : Nat) : ∀ n, (md5Hex.natToHexPad k n).length = k := by
  induction k with
  | zero => intro n; rfl
  | succ k ih => intro n; simp [md5Hex.natToHexPad, ih]

theorem md5Hex_length (l : List Char) : (md5Hex l).length = 32 :=
  md5Hex_aux_length 32 _

/-! ## Lemmas: normalization acts as the identity on plain repeated text

Used to evaluate the 2000-character truncation boundary without unfolding a
2001-element computation. -/

theorem splitWsAux_no_space : ∀ (l acc : List Char), (∀ c ∈ l, isPySpace c = false) →
    splitWsAux l acc = if (acc.reverse ++ l).isEmpty then [] else [acc.reverse ++ l] := by
  intro l
  induction l with
  | nil =>
    intro acc _
    unfold splitWsAux
    cases acc with
    | nil => rfl
    | cons a as => simp
  | cons c rest ih =>
    intro acc h
    unfold splitWsAux
    rw [h c (List.mem_cons_self c rest)]
    simp only [Bool.false_eq_true, if_false]
    rw [ih (c :: acc) (fun d hd => h d (List.mem_cons_of_mem c hd))]
    rw [List.reverse_cons, List.append_assoc, List.singleton_append]

theorem collapseWs_no_space {l : List Char} (hne : l ≠ [])
    (h : ∀ c ∈ l, isPySpace c = false) : collapseWs l = l := by
  unfold collapseWs pyWords
  rw [splitWsAux_no_space l [] h]
  cases l with
  | nil => exact absurd rfl hne
  | cons c cs => rfl

/-- If the matcher fires on no suffix of `l`, the rewrite scan is the
identity. -/
theorem scanRw_none (m : List Char → Option (Nat × List Char)) :
    ∀ (fuel : Nat) (l : List Char), (∀ i, m (l.drop i) = none) →
    scanRw m fuel l = l := by
  intro fuel
  induction fuel with
  | zero =>
    intro l _
    cases l with
    | nil => rfl
    | cons c rest => rfl
  | succ fuel ih =>
    intro l h
    cases l with
    | nil => rfl
    | cons c rest =>
      unfold scanRw
      have h0 := h 0
      rw [List.drop_zero] at h0
      rw [h0]
      rw [ih rest (fun i => by have hi := h (i + 1); rwa [List.drop_succ_cons] at hi)]

theorem matchCodeBlock_a {t : List Char} (hall : ∀ c ∈ t, c = 'a') :
    matchCodeBlock t = none := by
  cases t with
  | nil => rfl
  | cons c1 rest1 =>
    cases rest1 with
    | nil => rfl
    | cons c2 rest2 =>
      cases rest2 with
      | nil => rfl
      | cons c3 rest3 =>
        unfold matchCodeBlock
        dsimp only
        rw [if_neg]
        intro hb
        have h1 : c1 = 'a' := hall c1 (by simp)
        rw [h1] at hb
        exact absurd hb.1 (by decide)

theorem matchInlineCode_a {t : List Char} (hall : ∀ c ∈ t, c = 'a') :
    matchInlineCode t = none := by
  cases t with
  | nil => rfl
  | cons c rest =>
    unfold matchInlineCode
    dsimp only
    rw [if_neg]
    have h1 : c = 'a' := hall c (by simp)
    rw [h1]
    decide

theorem matchHeader_a {t : List Char} (hall : ∀ c ∈ t, c = 'a') :
    matchHeader t = none := by
  cases t with
  | nil => rfl
  | cons c rest =>
    unfold matchHeader
    dsimp only
    rw [if_neg]
    have h1 : c = 'a' := hall c (by simp)
    rw [h1]
    decide

theorem matchLink_a {t : List Char} (hall : ∀ c ∈ t, c = 'a') :
    matchLink t = none := by
  cases t with
  | nil => rfl
  | cons c rest =>
    unfold matchLink
    dsimp only
    rw [if_neg]
    have h1 : c = 'a' := hall c (by simp)
    rw [h1]
    decide

theorem matchURL_a {t : List Char} (hall : ∀ c ∈ t, c = 'a') :
    matchURL t = none := by
  cases t with
  | nil => rfl
  | cons c rest =>
    have h1 : c = 'a' := hall c (by simp)
    subst h1
    unfold matchURL
    have h8 : ¬ (('a' :: rest).take 8 = ("https://").data) := by
      intro heq
      have hh := congrArg List.head? heq
      rw [List.take_succ_cons, List.head?_cons] at hh
      exact absurd hh (by decide)
    have h7 : ¬ (('a' :: rest).take 7 = ("http://").data) := by
      intro heq
      have hh := congrArg List.head? heq
      rw [List.take_succ_cons, List.head?_cons] at hh
      exact absurd hh (by decide)
    rw [if_neg h8, if_neg h7]
    rfl

/-- Normalization before truncation is the identity on a nonempty run of
the letter `a`. -/
theorem cleanedText_replicate_a (n : Nat) (hn : 0 < n) :
    cleanedText (List.replicate n 'a') = List.replicate n 'a' := by
  have hrep : ∀ c ∈ List.replicate n 'a', c = 'a' :=
    fun c hc => List.eq_of_mem_replicate hc
  have hdrop : ∀ i, ∀ c ∈ (List.replicate n 'a').drop i, c = 'a' :=
    fun i c hc => hrep c ((List.drop_sublist i _).mem hc)
  have hnsp : ∀ c ∈ List.replicate n 'a', isPySpace c = false := by
    intro c hc
    rw [hrep c hc]
    rfl
  have hne : List.replicate n 'a' ≠ [] := by
    intro hnil
    rw [← List.length_eq_zero] at hnil
    rw [List.length_replicate] at hnil
    omega
  unfold cleanedText
  dsimp only
  rw [collapseWs_no_space hne hnsp]
  rw [scanRw_none matchCodeBlock _ _ (fun i => matchCodeBlock_a (hdrop i))]
  rw [scanRw_none matchInlineCode _ _ (fun i => matchInlineCode_a (hdrop i))]
  rw [scanRw_none matchHeader _ _ (fun i => matchHeader_a (hdrop i))]
  rw [scanRw_none matchLink _ _ (fun i => matchLink_a (hdrop i))]
  rw [scanRw_none matchURL _ _ (fun i => matchURL_a (hdrop i))]
  rw [collapseWs_no_space hne hnsp]

/-! ## Spec-side definitions (for refinement comparisons)

These definitions follow the words of the specification/claims, to be
compared against the source-derived definitions above. -/

/-- Spec-side length bonus of the scoring heuristic: +1.0 for 5–20 words,
+0.5 for more than 20, else 0. -/
def specLengthBonus (sentence : List Char) : ℚ :=
  let n := (pyWords sentence).length
  if 5 ≤ n ∧ n ≤ 20 then 1 else if 20 < n then 1/2 else 0

/-- Spec-side technical-keyword bonus: +0.5 per distinct vocabulary keyword
occurring as a substring of the lower-cased sentence, uncapped. -/
def specTechBonus (sentence : List Char) : ℚ :=
  ((techKeywords.filter (fun w => strIn w (pyLower sentence))).length : ℚ) * (1/2)

/-- Spec-side position bonus: +0.5 if the sentence occurs within the first
200 characters of the full text. -/
def specPositionBonus (sentence fullText : List Char) : ℚ :=
  if strIn sentence (fullText.take 200) then 1/2 else 0

/-- Spec-side interrogative/action bonus: +0.3. -/
def specQuestionBonus (sentence : List Char) : ℚ :=
  if questionWords.any (fun w => strIn w (pyLower sentence)) then 3/10 else 0

/-- Spec-side problem-indicator bonus: +0.4. -/
def specErrorBonus (sentence : List Char) : ℚ :=
  if errorWords.any (fun w => strIn w (pyLower sentence)) then 2/5 else 0

/-- The sentence filter as claim C7 words it: discard exactly the fragments
that are empty after trimming or shorter than 10 characters (so a trimmed
10-character fragment is kept). -/
def claimSplit (text : List Char) : List (List Char) :=
  ((splitPunct text).map pyStrip).filter
    (fun s => !(s.isEmpty || decide (s.length < 10)))

/-! ## Claims about the cache layer -/

/-- C2 counterexample: with a 218-character prefix and a parameter whose
serialization pushes the key string over 250 characters, the hashed key
`"{pfx}:{hash}"` is 218 + 1 + 32 = 251 characters long, so the claimed
250-character bound on every generated key fails. -/
theorem cex_C2 :
    ¬ (generate_cache_key (List.replicate 218 'p')
        [(("a").data, PyVal.str (List.replicate 30 'x'))]).length ≤ 250 := by
  decide

/-- C2 (amended): the key length is at most 250 whenever the prefix is at
most 217 characters (in general it is bounded by the prefix length plus 33);
and for logically equal parameter sets whose serialized key string exceeds
250 characters, both calls deterministically return the same hashed key of
the shape `"{pfx}:{hash}"`. -/
theorem spec_C2_amended (pfx : List Char) (p q : List (List Char × PyVal)) :
    (pfx.length ≤ 217 → (generate_cache_key pfx p).length ≤ 250)
    ∧ (List.Perm p q → (p.map Prod.fst).Nodup → 250 < (keyString pfx p).length →
        generate_cache_key pfx p = generate_cache_key pfx q ∧
        generate_cache_key pfx p = pfx ++ ':' :: md5Hex (keyString pfx p)) := by
  constructor
  · intro hp
    unfold generate_cache_key
    by_cases hlong : 250 < (keyString pfx p).length
    · simp only [hlong, if_true, List.length_append, List.length_cons, md5Hex_length]
      omega
    · simp only [hlong, if_false]
      omega
  · intro hperm hnd hlong
    refine ⟨gck_perm pfx hperm hnd, ?_⟩
    unfold generate_cache_key
    simp only [hlong, if_true]

/-- C2 witness: concrete instances discharging each hypothesis of the
amended claim. -/
theorem spec_C2_amended_witness :
    (generate_cache_key (("issues").data)
        [(("a").data, PyVal.str (List.replicate 300 'x')), (("b").data, PyVal.int 2)]).length ≤ 250
    ∧ generate_cache_key (("issues").data)
        [(("a").data, PyVal.str (List.replicate 300 'x')), (("b").data, PyVal.int 2)] =
      generate_cache_key (("issues").data)
        [(("b").data, PyVal.int 2), (("a").data, PyVal.str (List.replicate 300 'x'))] := by
  refine ⟨(spec_C2_amended (("issues").data)
    [(("a").data, PyVal.str (List.replicate 300 'x')), (("b").data, PyVal.int 2)]
    [(("b").data, PyVal.int 2), (("a").data, PyVal.str (List.replicate 300 'x'))]).1
      (by decide), ?_⟩
  exact ((spec_C2_amended (("issues").data)
    [(("a").data, PyVal.str (List.replicate 300 'x')), (("b").data, PyVal.int 2)]
    [(("b").data, PyVal.int 2), (("a").data, PyVal.str (List.replicate 300 'x'))]).2
    (by decide) (by decide) (by decide)).1

/-- C5 (confirmed): `generate_cache_key` returns byte-identical keys for
parameter lists containing the same (name, value) pairs in any supply order
(names pairwise distinct, as Python `**kwargs` guarantees); being a pure
function of its arguments, it yields the same key on every call with the
same logical input. -/
theorem spec_C5 (pfx : List Char) (p q : List (List Char × PyVal))
    (hperm : List.Perm p q) (hnd : (p.map Prod.fst).Nodup) :
    generate_cache_key pfx p = generate_cache_key pfx q :=
  gck_perm pfx hperm hnd

/-- C5 witness: `buildKey(prefix, a=1, b=2) = buildKey(prefix, b=2, a=1)`. -/
theorem spec_C5_witness :
    generate_cache_key (("issues").data)
        [(("a").data, PyVal.int 1), (("b").data, PyVal.int 2)] =
      generate_cache_key (("issues").data)
        [(("b").data, PyVal.int 2), (("a").data, PyVal.int 1)] :=
  spec_C5 (("issues").data) _ _ (by decide) (by decide)

/-- C3 (confirmed): on a hit (the service-level get returns a value),
`get_or_set` returns the cached value with zero producer invocations; on a
miss with a succeeding producer, it invokes the producer exactly once,
attempts the store (whose failure `cacheSet` swallows, leaving the state
unchanged — the equation holds for every backend `bset`), and returns the
produced value. -/
theorem spec_C3 {V ε σ : Type} (bget : σ → List Char → Except ε (Option V))
    (bset : σ → List Char → Option V → Nat → Except ε σ) (s : σ) (key : List Char)
    (producer : Nat → Except ε (Option V)) (timeout : Option Nat) :
    (∀ v, cacheGet bget s key = Option.some v →
      get_or_set bget bset s key producer timeout = (Except.ok (Option.some v), s, 0))
    ∧ (cacheGet bget s key = Option.none → ∀ w, producer 0 = Except.ok w →
      get_or_set bget bset s key producer timeout =
        (Except.ok w, (cacheSet bset s key w timeout).2, 1)) := by
  constructor
  · intro v hv
    unfold get_or_set
    rw [hv]
  · intro hm w hw
    unfold get_or_set
    rw [hm, hw]

/-- C3 witness: a hit, a miss with a working in-memory backend, and a miss
whose store step fails (the failure is swallowed and the value still
returned). -/
theorem spec_C3_witness :
    get_or_set memGet memSet [((("k").data), Option.some 7)] (("k").data)
        (fun _ => Except.ok (Option.some 9)) Option.none =
      (Except.ok (Option.some 7), [((("k").data), Option.some 7)], 0)
    ∧ get_or_set memGet memSet ([] : List (List Char × Option Nat)) (("k").data)
        (fun _ => Except.ok (Option.some 9)) Option.none =
      (Except.ok (Option.some 9), [((("k").data), Option.some 9)], 1)
    ∧ get_or_set memGet (fun _ _ _ _ => Except.error ())
        ([] : List (List Char × Option Nat)) (("k").data)
        (fun _ => Except.ok (Option.some 9)) Option.none =
      (Except.ok (Option.some 9), [], 1) := by
  refine ⟨?_, ?_, ?_⟩
  · exact (spec_C3 memGet memSet [((("k").data), Option.some 7)] (("k").data)
      (fun _ => Except.ok (Option.some 9)) Option.none).1 7 (by decide)
  · exact (spec_C3 memGet memSet ([] : List (List Char × Option Nat)) (("k").data)
      (fun _ => Except.ok (Option.some 9)) Option.none).2 (by decide) (Option.some 9) rfl
  · exact (spec_C3 memGet (fun _ _ _ _ => Except.error ())
      ([] : List (List Char × Option Nat)) (("k").data)
      (fun _ => Except.ok (Option.some 9)) Option.none).2 (by decide) (Option.some 9) rfl

/-- C4 (confirmed): the embedded `summarize_text` is a total function (the
source's `try` body contains only total operations, so it always returns a
string and never raises); `get_or_set` raises only the producer's own
failure (a raised error is the producer's second-invocation error — backend
failures from get/set never surface); and with a never-failing producer it
always returns a value. -/
theorem spec_C4 {V ε σ : Type} (text : List Char) (mo ml : Option Int)
    (bget : σ → List Char → Except ε (Option V))
    (bset : σ → List Char → Option V → Nat → Except ε σ) (s : σ) (key : List Char)
    (producer : Nat → Except ε (Option V)) (timeout : Option Nat) :
    (∃ out, summarize_text text mo ml = out)
    ∧ (∀ e, (get_or_set bget bset s key producer timeout).1 = Except.error e →
        producer 1 = Except.error e)
    ∧ ((∀ i e, producer i ≠ Except.error e) →
        ∃ w, (get_or_set bget bset s key producer timeout).1 = Except.ok w) := by
  refine ⟨⟨_, rfl⟩, ?_, ?_⟩
  · intro e he
    unfold get_or_set at he
    cases hg : cacheGet bget s key with
    | some v => rw [hg] at he; simp at he
    | none =>
      rw [hg] at he
      cases h0 : producer 0 with
      | ok c => rw [h0] at he; simp at he
      | error e1 =>
        rw [h0] at he
        cases h1 : producer 1 with
        | ok v2 => rw [h1] at he; simp at he
        | error e2 =>
          rw [h1] at he
          simp at he
          subst he
          rfl
  · intro hp
    unfold get_or_set
    cases hg : cacheGet bget s key with
    | some v => exact ⟨Option.some v, rfl⟩
    | none =>
      cases h0 : producer 0 with
      | ok c => exact ⟨c, rfl⟩
      | error e1 => exact absurd h0 (hp 0 e1)

/-- C4 witness: a never-failing producer yields a value; an always-failing
producer's error propagates. -/
theorem spec_C4_witness :
    (∃ w, (get_or_set memGet memSet ([] : List (List Char × Option Nat)) (("k").data)
        (fun _ => Except.ok (Option.some 3)) Option.none).1 = Except.ok w)
    ∧ (fun _ => (Except.error 42 : Except Nat (Option Nat))) 1 = Except.error 42 := by
  constructor
  · exact (spec_C4 ([] : List Char) Option.none Option.none memGet memSet _ _ _ _).2.2
      (fun i e h => by exact Except.noConfusion h)
  · exact (spec_C4 ([] : List Char) Option.none Option.none
      (fun (s : Unit) (_ : List Char) => (Except.ok Option.none : Except Nat (Option Nat)))
      (fun s _ _ _ => Except.ok s) () (("k").data)
      (fun _ => Except.error 42) Option.none).2.1 42 rfl

/-- C10 (confirmed): storing `None` is indistinguishable from absence — after
`set(key, None)` the service-level get reports a miss, a following
`get_or_set` still invokes the producer (count 1), and a `get_or_set` whose
producer returned `None` leaves a state on which the next `get_or_set` for
the same key invokes its producer again. -/
theorem spec_C10 {V : Type} (s : List (List Char × Option V)) (key : List Char)
    (t t2 : Option Nat) (p q : Nat → Except Unit (Option V)) :
    cacheGet memGet (cacheSet memSet s key Option.none t).2 key = Option.none
    ∧ (∀ w, p 0 = Except.ok w →
        (get_or_set memGet memSet (cacheSet memSet s key Option.none t).2 key p t2).2.2 = 1)
    ∧ (cacheGet memGet s key = Option.none → p 0 = Except.ok Option.none →
        ∀ w2, q 0 = Except.ok w2 →
        (get_or_set memGet memSet (get_or_set memGet memSet s key p t).2.1 key q t2).2.2 = 1) := by
  have hmiss : ∀ (s2 : List (List Char × Option V)),
      cacheGet memGet ((key, Option.none) :: s2) key = Option.none := by
    intro s2
    simp [cacheGet, memGet, List.lookup]
  have hstate : (cacheSet memSet s key Option.none t).2 = (key, Option.none) :: s := by
    unfold cacheSet memSet
    cases t with
    | none => rfl
    | some tv =>
      by_cases h : tv = 0 <;> simp [h]
  refine ⟨by rw [hstate]; exact hmiss s, ?_, ?_⟩
  · intro w hw
    unfold get_or_set
    rw [hstate, hmiss s, hw]
  · intro hm h0 w2 hq
    have h1 : (get_or_set memGet memSet s key p t).2.1 = (key, Option.none) :: s := by
      unfold get_or_set
      rw [hm, h0]
      exact hstate
    rw [h1]
    unfold get_or_set
    rw [hmiss s, hq]

/-! ## Lemmas: whitespace words, strip, sentence splitting -/

theorem dropWhile_head?_false {p : α → Bool} {l : List α} {x : α}
    (h : (l.dropWhile p).head? = some x) : p x = false := by
  induction l with
  | nil => simp [List.dropWhile] at h
  | cons c cs ih =>
    rw [List.dropWhile_cons] at h
    by_cases hc : p c
    · rw [if_pos hc] at h
      exact ih h
    · rw [if_neg hc] at h
      have hcx : c = x := by simpa using h
      subst hcx
      exact Bool.eq_false_iff.mpr hc

theorem dropWhile_eq_self_of_head? {p : α → Bool} {l : List α}
    (h : ∀ x, l.head? = some x → p x = false) : l.dropWhile p = l := by
  cases l with
  | nil => rfl
  | cons c cs =>
    rw [List.dropWhile_cons, if_neg]
    simp [h c rfl]

theorem mem_pyStrip {l : List Char} {c : Char} (h : c ∈ pyStrip l) : c ∈ l := by
  unfold pyStrip at h
  rw [List.mem_reverse] at h
  have h2 := (List.dropWhile_sublist isPySpace).mem h
  rw [List.mem_reverse] at h2
  exact (List.dropWhile_sublist isPySpace).mem h2

theorem pyStrip_getLast? {l : List Char} {c : Char}
    (h : (pyStrip l).getLast? = some c) : isPySpace c = false := by
  unfold pyStrip at h
  rw [List.getLast?_reverse] at h
  exact dropWhile_head?_false h

theorem pyStrip_head? {l : List Char} {c : Char}
    (h : (pyStrip l).head? = some c) : isPySpace c = false := by
  unfold pyStrip at h
  set d := l.dropWhile isPySpace with hd
  set X := d.reverse.dropWhile isPySpace with hX
  have hXne : X ≠ [] := by
    intro hnil
    rw [hnil] at h
    simp at h
  have hget : X.getLast? = some c := by
    rw [← List.head?_reverse]
    exact h
  have hsplit : d.reverse.takeWhile isPySpace ++ X = d.reverse :=
    List.takeWhile_append_dropWhile isPySpace d.reverse
  have hlast : d.reverse.getLast? = X.getLast? := by
    rw [← hsplit]
    exact List.getLast?_append_of_ne_nil _ hXne
  have hdh : d.head? = some c := by
    rw [← List.getLast?_reverse d]
    rw [hlast]
    exact hget
  exact dropWhile_head?_false hdh

theorem splitWsAux_all_space : ∀ l : List Char, (∀ c ∈ l, isPySpace c = true) →
    splitWsAux l [] = [] := by
  intro l
  induction l with
  | nil => intro _; rfl
  | cons c cs ih =>
    intro h
    unfold splitWsAux
    simp only [h c (List.mem_cons_self c cs), if_true, List.isEmpty_nil]
    exact ih (fun d hd => h d (List.mem_cons_of_mem c hd))

theorem collapseWs_all_space {l : List Char} (h : ∀ c ∈ l, isPySpace c = true) :
    collapseWs l = [] := by
  unfold collapseWs pyWords
  rw [splitWsAux_all_space l h]
  rfl

theorem pyStrip_idem (l : List Char) : pyStrip (pyStrip l) = pyStrip l := by
  cases hs : pyStrip l with
  | nil => rfl
  | cons c cs =>
    have hhead : ∀ x, (pyStrip l).head? = some x → isPySpace x = false :=
      fun x hx => pyStrip_head? hx
    have hlast : ∀ x, (pyStrip l).reverse.head? = some x → isPySpace x = false := by
      intro x hx
      rw [List.head?_reverse] at hx
      exact pyStrip_getLast? hx
    unfold pyStrip
    rw [← hs]
    rw [dropWhile_eq_self_of_head? hhead]
    rw [dropWhile_eq_self_of_head? hlast]
    exact List.reverse_reverse _

/-- No fragment produced by `splitPunct` contains a terminator character. -/
theorem splitPunct_no_term (l : List Char) :
    ∀ f ∈ splitPunct l, ∀ c ∈ f, isTermCh c = false := by
  unfold splitPunct
  suffices hgen : ∀ st : List (List Char) × Bool,
      (∀ f ∈ st.1, ∀ c ∈ f, isTermCh c = false) →
      ∀ f ∈ (l.foldr splitPunctStep st).1, ∀ c ∈ f, isTermCh c = false by
    apply hgen ([[]], false)
    intro f hf c hc
    simp only [List.mem_singleton] at hf
    subst hf
    simp at hc
  intro st hst
  induction l with
  | nil => exact hst
  | cons a as ih =>
    simp only [List.foldr_cons]
    intro f hf c hc
    set st2 := as.foldr splitPunctStep st with hst2
    have hinv := ih
    unfold splitPunctStep at hf
    cases ht : isTermCh a
    · rw [ht] at hf
      simp only [Bool.false_eq_true, if_false] at hf
      rcases List.mem_cons.mp hf with rfl | hf2
      · rcases List.mem_cons.mp hc with rfl | hc2
        · exact ht
        · cases h1 : st2.1 with
          | nil => rw [h1] at hc2; simp at hc2
          | cons g gs =>
            rw [h1] at hc2
            simp only [List.headD_cons] at hc2
            exact hinv g (by rw [h1]; exact List.mem_cons_self g gs) c hc2
      · exact hinv f (List.mem_of_mem_tail hf2) c hc
    · rw [ht] at hf
      simp only [if_true] at hf
      by_cases h2 : st2.2
      · rw [if_pos h2] at hf
        exact hinv f hf c hc
      · rw [if_neg h2] at hf
        rcases List.mem_cons.mp hf with rfl | hf2
        · simp at hc
        · exact hinv f hf2 c hc

/-- C10 witness: concrete store, key and producers. -/
theorem spec_C10_witness :
    cacheGet memGet (cacheSet memSet ([] : List (List Char × Option Nat)) (("k").data)
        Option.none Option.none).2 (("k").data) = Option.none
    ∧ (get_or_set memGet memSet
        (get_or_set memGet memSet ([] : List (List Char × Option Nat)) (("k").data)
          (fun _ => Except.ok Option.none) Option.none).2.1 (("k").data)
        (fun _ => Except.ok (Option.some 5)) Option.none).2.2 = 1 := by
  constructor
  · exact (spec_C10 ([] : List (List Char × Option Nat)) (("k").data)
      Option.none Option.none (fun _ => Except.ok Option.none)
      (fun _ => Except.ok (Option.some 5))).1
  · exact (spec_C10 ([] : List (List Char × Option Nat)) (("k").data)
      Option.none Option.none (fun _ => Except.ok Option.none)
      (fun _ => Except.ok (Option.some 5))).2.2 (by decide) rfl
      (Option.some 5) rfl

/-! ## Lemmas: length and shape facts for summary composition -/

theorem joinSp_cons_length (w : List Char) (ws : List (List Char)) :
    (joinSp (w :: ws)).length ≤ w.length + 1 + (joinSp ws).length := by
  cases ws with
  | nil => simp [joinSp]
  | cons x xs =>
    show (w ++ ' ' :: joinSp (x :: xs)).length ≤ _
    simp [List.length_append]
    omega

theorem splitWsAux_join_length :
    ∀ (l acc : List Char), (joinSp (splitWsAux l acc)).length ≤ l.length + acc.length := by
  intro l
  induction l with
  | nil =>
    intro acc
    unfold splitWsAux
    cases acc with
    | nil => simp [joinSp]
    | cons a as => simp [joinSp]
  | cons c rest ih =>
    intro acc
    unfold splitWsAux
    cases hsp : isPySpace c
    · simp only [Bool.false_eq_true, if_false]
      have := ih (c :: acc)
      simp only [List.length_cons] at this ⊢
      omega
    · simp only [if_true]
      cases acc with
      | nil =>
        simp only [List.isEmpty_nil, if_true]
        have := ih []
        simp only [List.length_nil] at this
        simp only [List.length_cons]
        omega
      | cons a as =>
        simp only [List.isEmpty_cons, Bool.false_eq_true, if_false]
        have h1 := joinSp_cons_length ((a :: as).reverse) (splitWsAux rest [])
        have h2 := ih []
        simp only [List.length_reverse, List.length_cons, List.length_nil] at h1 h2 ⊢
        omega

theorem collapseWs_length_le (l : List Char) : (collapseWs l).length ≤ l.length := by
  have := splitWsAux_join_length l []
  simpa [collapseWs, pyWords] using this

theorem splitWsAux_not_nil_mem : ∀ (l acc : List Char), [] ∉ splitWsAux l acc := by
  intro l
  induction l with
  | nil =>
    intro acc
    unfold splitWsAux
    cases acc with
    | nil => simp
    | cons a as => simp
  | cons c rest ih =>
    intro acc
    unfold splitWsAux
    cases hsp : isPySpace c
    · simp only [Bool.false_eq_true, if_false]
      exact ih (c :: acc)
    · simp only [if_true]
      cases acc with
      | nil =>
        simp only [List.isEmpty_nil, if_true]
        exact ih []
      | cons a as =>
        simp only [List.isEmpty_cons, Bool.false_eq_true, if_false]
        intro hmem
        rcases List.mem_cons.mp hmem with heq | hmem2
        · exact absurd (congrArg List.length heq.symm) (by simp)
        · exact ih [] hmem2

theorem splitWsAux_ne_nil :
    ∀ (l acc : List Char), ((∃ c ∈ l, isPySpace c = false) ∨ acc ≠ []) →
    splitWsAux l acc ≠ [] := by
  intro l
  induction l with
  | nil =>
    intro acc h
    rcases h with ⟨c, hc, _⟩ | hacc
    · simp at hc
    · unfold splitWsAux
      cases acc with
      | nil => exact absurd rfl hacc
      | cons a as => simp
  | cons c rest ih =>
    intro acc h
    unfold splitWsAux
    cases hsp : isPySpace c
    · simp only [Bool.false_eq_true, if_false]
      exact ih (c :: acc) (Or.inr (by simp))
    · simp only [if_true]
      cases acc with
      | nil =>
        simp only [List.isEmpty_nil, if_true]
        rcases h with ⟨d, hd, hdns⟩ | hacc
        · rcases List.mem_cons.mp hd with rfl | hd2
          · rw [hsp] at hdns
            exact absurd hdns (by simp)
          · exact ih [] (Or.inl ⟨d, hd2, hdns⟩)
        · exact absurd rfl hacc
      | cons a as =>
        simp only [List.isEmpty_cons, Bool.false_eq_true, if_false]
        simp

theorem collapseWs_ne_nil {l : List Char} (h : ∃ c ∈ l, isPySpace c = false) :
    collapseWs l ≠ [] := by
  unfold collapseWs pyWords
  have hw : splitWsAux l [] ≠ [] := splitWsAux_ne_nil l [] (Or.inl h)
  cases hws : splitWsAux l [] with
  | nil => exact absurd hws hw
  | cons w ws =>
    have hwne : w ≠ [] := by
      intro hnil
      apply splitWsAux_not_nil_mem l []
      rw [hws, ← hnil]
      exact List.mem_cons_self w ws
    cases ws with
    | nil =>
      show joinSp [w] ≠ []
      simpa [joinSp] using hwne
    | cons x xs =>
      show joinSp (w :: x :: xs) ≠ []
      unfold joinSp
      simp

theorem joinSp_head? {w : List Char} (ws : List (List Char)) (hw : w ≠ []) :
    (joinSp (w :: ws)).head? = w.head? := by
  cases ws with
  | nil => rfl
  | cons x xs =>
    show (w ++ ' ' :: joinSp (x :: xs)).head? = w.head?
    cases w with
    | nil => exact absurd rfl hw
    | cons a as => rfl

theorem capitalizeFirst_length (s : List Char) :
    (capitalizeFirst s).length = s.length := by
  cases s with
  | nil => rfl
  | cons c rest =>
    unfold capitalizeFirst
    cases h : !isUpperAscii c <;> simp [h]

theorem capitalizeFirst_ne_nil {s : List Char} (h : s ≠ []) :
    capitalizeFirst s ≠ [] := by
  cases s with
  | nil => exact absurd rfl h
  | cons c rest =>
    unfold capitalizeFirst
    cases hc : !isUpperAscii c <;> simp [hc]

theorem toNat_ofNat_valid {n : Nat} (h : n < 55296) : (Char.ofNat n).toNat = n := by
  unfold Char.ofNat
  rw [dif_pos (Or.inl h : n.isValidChar)]
  rfl

theorem toUpper_toNat {a : Char} (h1 : 97 ≤ a.toNat) (h2 : a.toNat ≤ 122) :
    (Char.toUpper a).toNat = a.toNat - 32 := by
  unfold Char.toUpper
  rw [if_pos ⟨h1, h2⟩]
  exact toNat_ofNat_valid (by omega)

theorem toUpper_id {a : Char} (h : ¬(97 ≤ a.toNat ∧ a.toNat ≤ 122)) :
    Char.toUpper a = a := by
  unfold Char.toUpper
  rw [if_neg h]

/-- The first character after capitalization is uppercase whenever it is
alphabetic. -/
theorem capitalizeFirst_head {s : List Char} {c : Char}
    (hh : (capitalizeFirst s).head? = some c)
    (ha : isAlphaAscii c = true) : isUpperAscii c = true := by
  cases s with
  | nil => simp [capitalizeFirst] at hh
  | cons a rest =>
    unfold capitalizeFirst at hh
    dsimp only at hh
    cases hu : isUpperAscii a
    · rw [hu] at hh
      simp only [Bool.not_false, if_true, List.head?_cons, Option.some_inj] at hh
      subst hh
      by_cases hlow : 97 ≤ a.toNat ∧ a.toNat ≤ 122
      · have ht := toUpper_toNat hlow.1 hlow.2
        unfold isUpperAscii
        rw [Bool.and_eq_true]
        constructor <;> · rw [decide_eq_true_iff]; omega
      · rw [toUpper_id hlow] at ha ⊢
        unfold isAlphaAscii isLowerAscii isUpperAscii at ha
        unfold isUpperAscii at *
        rw [Bool.or_eq_true, Bool.and_eq_true, Bool.and_eq_true] at ha
        rcases ha with hup | ⟨hl1, hl2⟩
        · rw [Bool.and_eq_true]
          exact hup
        · rw [decide_eq_true_iff] at hl1 hl2
          exact absurd ⟨hl1, hl2⟩ hlow
    · rw [hu] at hh
      simp only [Bool.not_true, Bool.false_eq_true, if_false, List.head?_cons,
        Option.some_inj] at hh
      subst hh
      exact hu

/-- The combined guarantees of post-processing, for any draft containing a
non-whitespace character: bounded growth by one character, non-emptiness,
terminal punctuation, and a capitalized head. -/
theorem postprocess_props {s : List Char} (hch : ∃ c ∈ s, isPySpace c = false) :
    (postprocessSummary s).length ≤ s.length + 1
    ∧ postprocessSummary s ≠ []
    ∧ (∃ c, (postprocessSummary s).getLast? = some c ∧ isTermCh c = true)
    ∧ (∀ c, (postprocessSummary s).head? = some c → isAlphaAscii c = true →
        isUpperAscii c = true) := by
  obtain ⟨c0, hc0, hc0ns⟩ := hch
  have hsne : s ≠ [] := by
    intro h
    subst h
    simp at hc0
  have hie : s.isEmpty = false := by
    cases s with
    | nil => exact absurd rfl hsne
    | cons a as => rfl
  have hs1ne : collapseWs s ≠ [] := collapseWs_ne_nil ⟨c0, hc0, hc0ns⟩
  have hs2ne : capitalizeFirst (collapseWs s) ≠ [] := capitalizeFirst_ne_nil hs1ne
  have hs2len : (capitalizeFirst (collapseWs s)).length ≤ s.length :=
    (capitalizeFirst_length (collapseWs s)).le.trans (collapseWs_length_le s)
  have hdef : postprocessSummary s =
      if !(capitalizeFirst (collapseWs s)).isEmpty &&
          !isTermCh ((capitalizeFirst (collapseWs s)).getLastD ' ') then
        capitalizeFirst (collapseWs s) ++ ['.']
      else capitalizeFirst (collapseWs s) := by
    unfold postprocessSummary
    rw [hie]
    simp only [Bool.false_eq_true, if_false]
  rw [hdef]
  cases hcond : (!(capitalizeFirst (collapseWs s)).isEmpty &&
      !isTermCh ((capitalizeFirst (collapseWs s)).getLastD ' '))
  · simp only [Bool.false_eq_true, if_false]
    refine ⟨by omega, hs2ne, ?_, fun c hh ha => capitalizeFirst_head hh ha⟩
    have hie2 : (capitalizeFirst (collapseWs s)).isEmpty = false := by
      cases hc : capitalizeFirst (collapseWs s) with
      | nil => exact absurd hc hs2ne
      | cons a as => rfl
    rw [hie2] at hcond
    simp only [Bool.not_false, Bool.true_and] at hcond
    obtain ⟨x, hx⟩ := Option.isSome_iff_exists.mp (List.getLast?_isSome.mpr hs2ne)
    have hgd : (capitalizeFirst (collapseWs s)).getLastD ' ' = x := by
      rw [List.getLastD_eq_getLast?, hx]
      rfl
    rw [hgd] at hcond
    refine ⟨x, hx, ?_⟩
    cases hterm : isTermCh x
    · rw [hterm] at hcond
      simp at hcond
    · rfl
  · simp only [if_true]
    refine ⟨?_, by simp, ?_, ?_⟩
    · rw [List.length_append]
      simp only [List.length_cons, List.length_nil]
      omega
    · refine ⟨'.', ?_, by decide⟩
      rw [List.getLast?_append_of_ne_nil _ (by simp)]
      rfl
    · intro c hh ha
      rw [List.head?_append_of_ne_nil _ hs2ne] at hh
      exact capitalizeFirst_head hh ha

/-- A strip that leaves nothing means the whole string was whitespace. -/
theorem pyStrip_eq_nil_all_space {l : List Char} (h : pyStrip l = []) :
    ∀ c ∈ l, isPySpace c = true := by
  unfold pyStrip at h
  rw [List.reverse_eq_nil_iff] at h
  have h2 : ∀ x ∈ (l.dropWhile isPySpace).reverse, isPySpace x = true :=
    List.dropWhile_eq_nil_iff.mp h
  intro c hc
  have hsplit := List.takeWhile_append_dropWhile (p := isPySpace) (l := l)
  rw [← hsplit] at hc
  rcases List.mem_append.mp hc with htk | hdr
  · exact List.mem_takeWhile_imp htk
  · exact h2 c (List.mem_reverse.mpr hdr)

theorem enumFrom_fst_lt {α : Type} :
    ∀ (l : List α) (i : Nat) (p : Nat × α), p ∈ enumFrom i l → p.1 < i + l.length := by
  intro l
  induction l with
  | nil =>
    intro i p hp
    simp [enumFrom] at hp
  | cons a as ih =>
    intro i p hp
    unfold enumFrom at hp
    rcases List.mem_cons.mp hp with rfl | hp2
    · simp
    · have := ih (i + 1) p hp2
      simp only [List.length_cons]
      omega

theorem enumFrom_length {α : Type} :
    ∀ (l : List α) (i : Nat), (enumFrom i l).length = l.length := by
  intro l
  induction l with
  | nil => intro i; rfl
  | cons a as ih =>
    intro i
    unfold enumFrom
    simp [ih (i + 1)]

theorem getD_mem {α : Type} :
    ∀ (l : List α) (i : Nat) (d : α), i < l.length → l.getD i d ∈ l := by
  intro l
  induction l with
  | nil =>
    intro i d h
    simp at h
  | cons a as ih =>
    intro i d h
    cases i with
    | zero => simp [List.getD]
    | succ j =>
      have hj : j < as.length := by simpa using h
      exact List.mem_cons_of_mem a (ih j d hj)

/-- Every kept sentence is nonempty with a non-whitespace first character. -/
theorem sentence_head_facts {t s : List Char} (hs : s ∈ splitIntoSentences t) :
    s ≠ [] ∧ ∀ c, s.head? = some c → isPySpace c = false := by
  unfold splitIntoSentences at hs
  rw [List.mem_filter] at hs
  obtain ⟨hmem, hcond⟩ := hs
  rw [List.mem_map] at hmem
  obtain ⟨f, _, hfs⟩ := hmem
  constructor
  · intro hnil
    rw [hnil] at hcond
    simp at hcond
  · intro c hc
    rw [← hfs] at hc
    exact pyStrip_head? hc

/-- `_generate_rule_based_summary` either returns its fixed fallback string
or a summary that fits in `maxLength` and contains a non-whitespace
character. -/
theorem generate_props (t : List Char) (M : Int) (hM : 3 ≤ M) :
    generateRuleBasedSummary t M = ("Unable to analyze the content structure.").data
    ∨ (((generateRuleBasedSummary t M).length : Int) ≤ M
        ∧ ∃ c ∈ generateRuleBasedSummary t M, isPySpace c = false) := by
  by_cases hraw : splitIntoSentences t = []
  · left
    unfold generateRuleBasedSummary
    rw [hraw]
    rfl
  · right
    have hie : (splitIntoSentences t).isEmpty = false := by
      cases h : splitIntoSentences t with
      | nil => exact absurd h hraw
      | cons a as => rfl
    have hn : 0 < (splitIntoSentences t).length := List.length_pos.mpr hraw
    unfold generateRuleBasedSummary
    dsimp only
    rw [hie]
    simp only [Bool.false_eq_true, if_false]
    set scored := enumFrom 0 ((splitIntoSentences t).map fun s => scoreSentence s t)
      with hscored
    set num := min 3 (max 1 ((splitIntoSentences t).length / 3)) with hnum
    set top := (sortBy descScore scored).take num with htop
    set selected := sortBy (fun a b => decide (a ≤ b)) (top.map Prod.fst)
      with hselected
    have hlt : ∀ j ∈ selected, j < (splitIntoSentences t).length := by
      intro j hj
      rw [hselected, (sortBy_perm _ _).mem_iff, List.mem_map] at hj
      obtain ⟨p, hp, hpj⟩ := hj
      rw [htop] at hp
      have hp2 : p ∈ sortBy descScore scored := (List.take_sublist num _).subset hp
      rw [(sortBy_perm _ _).mem_iff] at hp2
      have := enumFrom_fst_lt _ 0 p (hscored ▸ hp2)
      rw [List.length_map] at this
      omega
    have hselne : selected ≠ [] := by
      have hlen : selected.length = min num (sortBy descScore scored).length := by
        rw [hselected, (sortBy_perm _ _).length_eq, List.length_map, htop,
          List.length_take]
      have hslen : (sortBy descScore scored).length = (splitIntoSentences t).length := by
        rw [(sortBy_perm _ _).length_eq, hscored, enumFrom_length, List.length_map]
      intro hnil
      rw [hnil] at hlen
      rw [hslen] at hlen
      simp only [List.length_nil] at hlen
      omega
    cases hsel : selected with
    | nil => exact absurd hsel hselne
    | cons j0 js =>
      have hj0 : j0 < (splitIntoSentences t).length :=
        hlt j0 (by rw [hsel]; exact List.mem_cons_self j0 js)
      set w0 := (splitIntoSentences t).getD j0 [] with hw0
      have hw0mem : w0 ∈ splitIntoSentences t := getD_mem _ j0 [] hj0
      obtain ⟨hw0ne, hw0head⟩ := sentence_head_facts hw0mem
      set draft := joinSp (selected.map fun i => (splitIntoSentences t).getD i [])
        with hdraft
      have hdrafthead : draft.head? = w0.head? := by
        rw [hdraft, hsel]
        simp only [List.map_cons]
        exact joinSp_head? _ hw0ne
      obtain ⟨c1, hc1⟩ : ∃ c, w0.head? = some c := by
        cases hw : w0 with
        | nil => exact absurd hw hw0ne
        | cons a as => exact ⟨a, rfl⟩
      have hc1ns : isPySpace c1 = false := hw0head c1 hc1
      have hc1mem : c1 ∈ draft := by
        apply List.mem_of_mem_head?
        rw [hdrafthead, hc1]
        rfl
      rw [hsel] at hdraft
      rw [← hdraft]
      by_cases htr : M < (draft.length : Int)
      · rw [if_pos htr]
        constructor
        · have h0le : 0 ≤ M - 3 := by omega
          have htk : pyTake draft (M - 3) = draft.take (M - 3).toNat := by
            unfold pyTake
            rw [if_pos h0le]
          rw [htk, List.length_append, List.length_take]
          have h3 : (("...").data).length = 3 := rfl
          rw [h3]
          have hmn : (M - 3).toNat ≤ draft.length := by omega
          push_cast
          omega
        · refine ⟨'.', ?_, by decide⟩
          apply List.mem_append_right
          decide
      · rw [if_neg htr]
        exact ⟨by omega, c1, hc1mem, hc1ns⟩

/-- `_expand_summary` preserves non-emptiness, terminal punctuation and the
capitalized head, and its output fits in `max B (minLength + 20)` whenever
the input fits in `B`. -/
theorem expand_props (t s : List Char) (m B : Int)
    (h1 : s ≠ []) (h2 : (s.length : Int) ≤ B)
    (h3 : ∃ c, s.getLast? = some c ∧ isTermCh c = true)
    (h4 : ∀ c, s.head? = some c → isAlphaAscii c = true → isUpperAscii c = true) :
    expandSummary t s m ≠ []
    ∧ ((expandSummary t s m).length : Int) ≤ max B (m + 20)
    ∧ (∃ c, (expandSummary t s m).getLast? = some c ∧ isTermCh c = true)
    ∧ (∀ c, (expandSummary t s m).head? = some c → isAlphaAscii c = true →
        isUpperAscii c = true) := by
  have hBmax : B ≤ max B (m + 20) := le_max_left _ _
  unfold expandSummary
  by_cases hlen : m ≤ (s.length : Int)
  · rw [if_pos hlen]
    exact ⟨h1, by omega, h3, h4⟩
  · rw [if_neg hlen]
    dsimp only
    cases hctx : (pickCtx (pyWords (pyLower t)) (pyLower s) techKeywords []).isEmpty
    · simp only [Bool.false_eq_true, if_false]
      split
      next hg =>
        refine ⟨by simp [h1], by omega, ⟨'.', ?_, by decide⟩, ?_⟩
        · rw [List.getLast?_append_of_ne_nil _ (by simp)]
          rw [List.getLast?_append_of_ne_nil _ (by simp)]
          rfl
        · intro c hc ha
          rw [List.head?_append_of_ne_nil _ h1] at hc
          exact h4 c hc ha
      next hg =>
        exact ⟨h1, by omega, h3, h4⟩
    · simp only [if_true]
      exact ⟨h1, by omega, h3, h4⟩

theorem preprocessText_all_space {text : List Char}
    (h : ∀ c ∈ text, isPySpace c = true) : preprocessText text = [] := by
  have h1 : cleanedText text = [] := by
    unfold cleanedText
    dsimp only
    rw [collapseWs_all_space h]
    rfl
  show (if 2000 < (cleanedText text).length then
      (cleanedText text).take 2000 ++ ("...").data
    else cleanedText text) = []
  rw [h1]
  rfl

/-! ## Claims about splitting, scoring, normalization -/

/-- C1 counterexample: a normalized 14-word, 150-character sentence (with
the default `maxLength = 150`) joins to a 150-character draft that escapes
truncation, and post-processing appends a final `'.'`, producing 151
characters — more than `maxLength`. -/
theorem cex_C1 :
    ¬ (summarize_text
        (("Qqqqqqqqqq qqqqqqqqqq qqqqqqqqqq qqqqqqqqqq qqqqqqqqqq qqqqqqqqqq " ++
          "qqqqqqqqqq qqqqqqqqqq qqqqqqqqqq qqqqqqqqqq qqqqqqqqqq qqqqqqqqqq " ++
          "qqqqqqqqqq jjjjjjj.").data)
        Option.none Option.none).length ≤ 150 := by
  decide

/-- C1 (amended): whenever the effective maximum length `M` is at least 39
and the effective minimum length `m` satisfies `m + 20 ≤ M` (the reference
configuration 150/30 does), every input whose normalized form has at least
10 words summarizes to a non-empty string of length at most `M + 1`
characters (one more than claimed, for the appended final period), ending
in `'.'`, `'!'` or `'?'`, whose first character is uppercase if it is
alphabetic. -/
theorem spec_C1_amended (text : List Char) (mo ml : Option Int)
    (hM : 39 ≤ pyOrInt mo 150) (hm : pyOrInt ml 30 + 20 ≤ pyOrInt mo 150)
    (h10 : 10 ≤ (pyWords (preprocessText text)).length) :
    summarize_text text mo ml ≠ []
    ∧ ((summarize_text text mo ml).length : Int) ≤ pyOrInt mo 150 + 1
    ∧ (∃ c, (summarize_text text mo ml).getLast? = some c ∧ isTermCh c = true)
    ∧ (∀ c, (summarize_text text mo ml).head? = some c → isAlphaAscii c = true →
        isUpperAscii c = true) := by
  have hguard : (text.isEmpty || (pyStrip text).isEmpty) = false := by
    cases hst : pyStrip text with
    | cons a as =>
      have htne : text.isEmpty = false := by
        cases text with
        | nil => simp [pyStrip] at hst
        | cons b bs => rfl
      rw [htne]
      rfl
    | nil =>
      exfalso
      have hall : ∀ c ∈ text, isPySpace c = true := pyStrip_eq_nil_all_space hst
      rw [preprocessText_all_space hall] at h10
      simp [pyWords, splitWsAux] at h10
  unfold summarize_text
  rw [hguard]
  simp only [Bool.false_eq_true, if_false]
  rw [if_neg (by omega : ¬ (pyWords (preprocessText text)).length < 10)]
  have hgen := generate_props (preprocessText text) (pyOrInt mo 150) (by omega)
  have hpost :
      postprocessSummary (generateRuleBasedSummary (preprocessText text)
        (pyOrInt mo 150)) ≠ []
      ∧ ((postprocessSummary (generateRuleBasedSummary (preprocessText text)
          (pyOrInt mo 150))).length : Int) ≤ pyOrInt mo 150 + 1
      ∧ (∃ c, (postprocessSummary (generateRuleBasedSummary (preprocessText text)
          (pyOrInt mo 150))).getLast? = some c ∧ isTermCh c = true)
      ∧ (∀ c, (postprocessSummary (generateRuleBasedSummary (preprocessText text)
          (pyOrInt mo 150))).head? = some c → isAlphaAscii c = true →
          isUpperAscii c = true) := by
    rcases hgen with hfb | ⟨hlen, hns⟩
    · rw [hfb]
      have hcomp : postprocessSummary
          (("Unable to analyze the content structure.").data) =
          ("Unable to analyze the content structure.").data := by decide
      rw [hcomp]
      refine ⟨by decide, ?_, ⟨'.', by decide, by decide⟩, ?_⟩
      · have h40 : ((("Unable to analyze the content structure.").data).length : Int)
            = 40 := by decide
        rw [h40]
        omega
      · intro c hc ha
        have hcU : c = 'U' := by
          rw [show ((("Unable to analyze the content structure.").data).head?)
            = some 'U' from rfl] at hc
          exact (Option.some_inj.mp hc).symm
        subst hcU
        decide
    · obtain ⟨hplen, hpne, hplast, hphead⟩ := postprocess_props hns
      refine ⟨hpne, by omega, hplast, hphead⟩
  obtain ⟨hpne, hplen, hplast, hphead⟩ := hpost
  split
  next hexp =>
    have he := expand_props (preprocessText text)
      (postprocessSummary (generateRuleBasedSummary (preprocessText text)
        (pyOrInt mo 150))) (pyOrInt ml 30) (pyOrInt mo 150 + 1)
      hpne hplen hplast hphead
    obtain ⟨e1, e2, e3, e4⟩ := he
    refine ⟨e1, ?_, e3, e4⟩
    have hmax : max (pyOrInt mo 150 + 1) (pyOrInt ml 30 + 20) = pyOrInt mo 150 + 1 := by
      omega
    rw [hmax] at e2
    exact e2
  next hexp =>
    exact ⟨hpne, hplen, hplast, hphead⟩

/-- C1 witness: the specification's own scenario sentence with the default
lengths. -/
theorem spec_C1_amended_witness :
    summarize_text (("This bug causes the app to crash when clicking submit. " ++
        "It happens every time on the login page. " ++
        "Users report losing their session data.").data) Option.none Option.none ≠ []
    ∧ ((summarize_text (("This bug causes the app to crash when clicking submit. " ++
        "It happens every time on the login page. " ++
        "Users report losing their session data.").data) Option.none
        Option.none).length : Int) ≤ pyOrInt Option.none 150 + 1 := by
  have h := spec_C1_amended
    (("This bug causes the app to crash when clicking submit. " ++
      "It happens every time on the login page. " ++
      "Users report losing their session data.").data) Option.none Option.none
    (by decide) (by decide) (by decide)
  exact ⟨h.1, h.2.1⟩

/-- C6 (confirmed): the sentence score is exactly the sum of the five
independent bonuses described by the claim, and is never negative. -/
theorem spec_C6 (sentence fullText : List Char) :
    scoreSentence sentence fullText =
      specLengthBonus sentence + specTechBonus sentence +
      specPositionBonus sentence fullText + specQuestionBonus sentence +
      specErrorBonus sentence
    ∧ 0 ≤ scoreSentence sentence fullText := by
  unfold scoreSentence specLengthBonus specTechBonus specPositionBonus
    specQuestionBonus specErrorBonus
  constructor
  · dsimp only
    split_ifs <;> ring
  · dsimp only
    split_ifs <;> positivity

/-- C7 counterexample: on `"abcdefghij. klmnopqrstu."` the first fragment
trims to exactly 10 characters; the code discards it (it keeps only
fragments strictly longer than 10), while the claim's filter ("discard …
shorter than 10") would keep it. -/
theorem cex_C7 :
    splitIntoSentences (("abcdefghij. klmnopqrstu.").data) ≠
      claimSplit (("abcdefghij. klmnopqrstu.").data) := by
  decide

/-- C7 (amended): splitting breaks on runs of `.`, `!`, `?` and keeps, in
original order (a sublist of the trimmed fragments), exactly the fragments
whose trimmed form is strictly longer than 10 characters; every returned
sentence is trimmed, longer than 10 characters, and free of terminator
characters. -/
theorem spec_C7_amended (text : List Char) :
    splitIntoSentences text =
      ((splitPunct text).map pyStrip).filter (fun s => decide (10 < s.length))
    ∧ (∀ s ∈ splitIntoSentences text,
        10 < s.length ∧ (∀ c ∈ s, isTermCh c = false) ∧ pyStrip s = s)
    ∧ List.Sublist (splitIntoSentences text) ((splitPunct text).map pyStrip) := by
  refine ⟨?_, ?_, ?_⟩
  · unfold splitIntoSentences
    apply List.filter_congr
    intro a _
    cases a with
    | nil => rfl
    | cons c cs => simp
  · intro s hs
    unfold splitIntoSentences at hs
    rw [List.mem_filter] at hs
    obtain ⟨hmem, hcond⟩ := hs
    have hlenb : decide (10 < s.length) = true := by
      cases hd : decide (10 < s.length)
      · rw [hd, Bool.and_false] at hcond
        exact absurd hcond Bool.false_ne_true
      · rfl
    have hlen : 10 < s.length := of_decide_eq_true hlenb
    rw [List.mem_map] at hmem
    obtain ⟨f, hfmem, hfs⟩ := hmem
    refine ⟨hlen, ?_, ?_⟩
    · intro c hc
      rw [← hfs] at hc
      exact splitPunct_no_term text f hfmem c (mem_pyStrip hc)
    · rw [← hfs]
      exact pyStrip_idem f
  · unfold splitIntoSentences
    exact List.filter_sublist _

/-- C7 witness: a concrete sentence surviving the filter has the amended
properties. -/
theorem spec_C7_amended_witness :
    10 < (("Some sentence with content").data).length
    ∧ (∀ c ∈ (("Some sentence with content").data), isTermCh c = false)
    ∧ pyStrip (("Some sentence with content").data) =
        (("Some sentence with content").data) :=
  (spec_C7_amended (("Some sentence with content. ok.").data)).2.1
    (("Some sentence with content").data) (by decide)

/-- C8 counterexample: 2001 non-space characters normalize to 2000
characters plus `"..."` — 2003 characters, violating the claimed
2000-character bound. -/
theorem cex_C8 :
    ¬ (preprocessText (List.replicate 2001 'a')).length ≤ 2000 := by
  have hclean : cleanedText (List.replicate 2001 'a') = List.replicate 2001 'a' :=
    cleanedText_replicate_a 2001 (by omega)
  have hdef : preprocessText (List.replicate 2001 'a') =
      if 2000 < (cleanedText (List.replicate 2001 'a')).length then
        (cleanedText (List.replicate 2001 'a')).take 2000 ++ ("...").data
      else cleanedText (List.replicate 2001 'a') := rfl
  have h3 : (("...").data).length = 3 := rfl
  rw [hdef, hclean]
  rw [if_pos (by rw [List.length_replicate]; omega)]
  rw [List.length_append, List.length_take, List.length_replicate, h3]
  omega

/-- C8 (amended): the normalized text has length at most 2003: it is the
cleaned text when that is at most 2000 characters, and otherwise its first
2000 characters with `"..."` appended (2003 characters total); empty or
whitespace-only input yields the empty string. -/
theorem spec_C8_amended (text : List Char) :
    (preprocessText text).length ≤ 2003
    ∧ (2000 < (cleanedText text).length →
        preprocessText text = (cleanedText text).take 2000 ++ ("...").data)
    ∧ ((cleanedText text).length ≤ 2000 → preprocessText text = cleanedText text)
    ∧ ((∀ c ∈ text, isPySpace c = true) → preprocessText text = []) := by
  have hdef : preprocessText text =
      if 2000 < (cleanedText text).length then
        (cleanedText text).take 2000 ++ ("...").data
      else cleanedText text := rfl
  refine ⟨?_, ?_, ?_, ?_⟩
  · rw [hdef]
    by_cases h : 2000 < (cleanedText text).length
    · rw [if_pos h]
      rw [List.length_append, List.length_take]
      simp only [List.length_cons, List.length_nil]
      omega
    · rw [if_neg h]
      omega
  · intro h
    rw [hdef, if_pos h]
  · intro h
    rw [hdef, if_neg (by omega)]
  · intro h
    have h1 : cleanedText text = [] := by
      unfold cleanedText
      rw [collapseWs_all_space h]
      rfl
    rw [hdef, h1]
    rfl

/-- C8 witness: a whitespace-only input yields the empty string; a short
input is returned cleaned and untruncated; an over-long input is truncated
with the `"..."` suffix. -/
theorem spec_C8_amended_witness :
    preprocessText (("   ").data) = []
    ∧ preprocessText (("hello world").data) = cleanedText (("hello world").data)
    ∧ preprocessText (List.replicate 2001 'a') =
        (cleanedText (List.replicate 2001 'a')).take 2000 ++ ("...").data := by
  refine ⟨?_, ?_, ?_⟩
  · exact (spec_C8_amended (("   ").data)).2.2.2 (by decide)
  · exact (spec_C8_amended (("hello world").data)).2.2.1 (by decide)
  · exact (spec_C8_amended (List.replicate 2001 'a')).2.1
      (by rw [cleanedText_replicate_a 2001 (by omega), List.length_replicate]; omega)

/-- C9 counterexample: the input `" "` is non-empty and normalizes to the
empty string (fewer than 10 words), but `summarize_text` returns the
"no content" sentinel rather than the normalized text. -/
theorem cex_C9 :
    summarize_text [' '] Option.none Option.none ≠ preprocessText [' '] := by
  decide

/-- C9 (amended): for every input that is non-empty after stripping
whitespace and whose normalized form has fewer than 10 words,
`summarize_text` returns the normalized text unchanged. -/
theorem spec_C9_amended (text : List Char) (mo ml : Option Int)
    (h1 : pyStrip text ≠ [])
    (h2 : (pyWords (preprocessText text)).length < 10) :
    summarize_text text mo ml = preprocessText text := by
  have hTne : text.isEmpty = false := by
    cases text with
    | nil => exact absurd rfl h1
    | cons c cs => rfl
  have hSne : (pyStrip text).isEmpty = false := by
    cases hps : pyStrip text with
    | nil => exact absurd hps h1
    | cons c cs => rfl
  unfold summarize_text
  rw [hTne, hSne]
  simp only [Bool.or_self, Bool.false_eq_true, if_false]
  rw [if_pos h2]

/-- C9 witness: a short concrete input is returned normalized. -/
theorem spec_C9_amended_witness :
    summarize_text (("too short").data) Option.none Option.none =
      preprocessText (("too short").data) :=
  spec_C9_amended (("too short").data) Option.none Option.none
    (by decide) (by decide)

end IssueSum
